import Mathlib

/-!
# Verification of the Mock_Exam exam-aggregation server

Shallow embedding of `main.go` (the variant serving `/api/exams` through
`gzipMiddleware`): the data model (`ExamFile`, `Subject`), the aggregation
routine `readExamFiles`, the HTTP adapter `serveExamFiles` and the gzip
middleware `gzipMiddleware`.

Modelling conventions:
* A filesystem path is a list of components (`["json", "math", "a.json"]`
  stands for the Go path string `json/math/a.json`); `goExt`, `goDir`,
  `goBase` mirror `filepath.Ext`, `filepath.Dir`, `filepath.Base` on such
  clean relative paths.
* `filepath.Walk` visits entries in a deterministic (lexical, pre-order)
  sequence; a file tree is therefore presented to the embedding as the list
  of `WalkEntry` values in traversal order.  `WalkEntry.walkErr` is the
  error argument `filepath.Walk` passes to the callback, and
  `WalkEntry.content` is the outcome of `os.ReadFile`.
* The external JSON / JSONC decoders (`encoding/json`, `go-jsonc`) are
  abstracted as a `ParserLib` record of two fallible parsing functions.
* Go's builtin `map` has an unspecified, run-to-run varying iteration
  order.  The final `for subjectName, exams := range subjectsMap` loop is
  therefore modelled by an explicit iteration order `ord : List String`; an
  order is a possible Go map iteration exactly when it is a permutation of
  the map's key set (each key yielded exactly once).
* Bytes are modelled as `Nat`; the side-effecting
  `fmt.Printf("Warning: ...")` calls are modelled by returning the list of
  printed warnings alongside the result.
-/

namespace MockExam

/-- Generic parsed JSON value (the `interface{}` a Go unmarshal produces). -/
inductive JsonValue where
  | null
  | bool (b : Bool)
  | num (n : Int)
  | str (s : String)
  | arr (elems : List JsonValue)
  | obj (fields : List (String × JsonValue))

/-- Go struct `ExamFile`: a JSON file's base name and parsed content. -/
structure ExamFile where
  name : String
  content : JsonValue

/-- Go struct `Subject`: a subject name with its associated exams. -/
structure Subject where
  name : String
  exams : List ExamFile

/-- Go's `filepath.Base` on a component list: the last component
(`"."` for an empty path, as in Go). -/
def goBase : List String → String
  | [] => "."
  | [x] => x
  | _ :: rest => goBase rest

/-- Go's `filepath.Dir` on a component list: drop the last component. -/
def goDir : List String → List String
  | [] => []
  | [_] => []
  | x :: rest => x :: goDir rest

/-- Extension of a single path component: the suffix beginning at the final
dot, empty when there is no dot (as in Go's `filepath.Ext`). -/
def extOf (s : String) : String :=
  let rev := s.data.reverse
  if rev.contains '.' then ⟨'.' :: (rev.takeWhile (fun c => c ≠ '.')).reverse⟩ else ""

/-- Go's `filepath.Ext` on a component list: extension of the final element. -/
def goExt (p : List String) : String :=
  extOf (goBase p)

/-- Render a component list as the Go path string. -/
def pathToString (p : List String) : String :=
  String.intercalate "/" p

/-- The two external decoders used by `readExamFiles`:
`json.Unmarshal` (strict) and `jsonc.Unmarshal` (comment-tolerant),
abstracted as fallible functions from bytes to a generic value. -/
structure ParserLib where
  parseJson : List Nat → Except String JsonValue
  parseJsonc : List Nat → Except String JsonValue

/-- Format dispatch of `readExamFiles`: `jsonc.Unmarshal` for `.jsonc`,
`json.Unmarshal` otherwise. -/
def parseFor (lib : ParserLib) (ext : String) (content : List Nat) :
    Except String JsonValue :=
  if ext == ".jsonc" then lib.parseJsonc content else lib.parseJson content

/-- The message of the wrapped parse error
(`fmt.Errorf("failed to parse JSON(C) in file %s: %w", path, err)`). -/
def parseErrMsg (ext : String) (p : List String) (msg : String) : String :=
  (if ext == ".jsonc" then "failed to parse JSONC in file "
   else "failed to parse JSON in file ")
    ++ pathToString p ++ ": " ++ msg

/-- One entry of the `filepath.Walk` traversal, in visit order. -/
structure WalkEntry where
  path : List String
  isDir : Bool
  walkErr : Option String
  content : Except String (List Nat)

/-- What the walk callback does with one entry. -/
inductive EntryAction where
  | abort (msg : String)
  | skip
  | warnEmpty (msg : String)
  | keep (key : String) (exam : ExamFile)

/-- The body of the `filepath.Walk` callback in `readExamFiles`, for a
single entry: propagate the walk error, skip directories and unrecognized
extensions, warn-and-skip empty files, abort on read/parse errors, and
otherwise produce the subject key (base name of the containing directory)
and the `ExamFile` to append. -/
def processEntry (lib : ParserLib) (e : WalkEntry) : EntryAction :=
  match e.walkErr with
  | some msg => .abort msg
  | none =>
    if !e.isDir && (goExt e.path == ".json" || goExt e.path == ".jsonc") then
      match e.content with
      | .error msg => .abort ("failed to read file " ++ pathToString e.path ++ ": " ++ msg)
      | .ok content =>
        if content.length == 0 then
          .warnEmpty ("Warning: Skipping empty file " ++ pathToString e.path ++ "\n")
        else
          match parseFor lib (goExt e.path) content with
          | .error msg => .abort (parseErrMsg (goExt e.path) e.path msg)
          | .ok v => .keep (goBase (goDir e.path)) ⟨goBase e.path, v⟩
    else
      .skip

/-- The contents of Go's `subjectsMap` (`map[string][]ExamFile`), as an
association list in key-insertion order. -/
abbrev SubjectsMap : Type := List (String × List ExamFile)

/-- The map update `subjectsMap[subjectName] = append(subjectsMap[subjectName], examFile)`:
append to the existing bucket, or create a fresh bucket for a new key. -/
def mapAppend (m : SubjectsMap) (k : String) (x : ExamFile) : SubjectsMap :=
  match m with
  | [] => [(k, [x])]
  | (k', xs) :: rest =>
    if k' = k then (k', xs ++ [x]) :: rest else (k', xs) :: mapAppend rest k x

/-- The key set of the grouping map, in first-insertion (first-seen) order. -/
def mapKeys (m : SubjectsMap) : List String :=
  m.map Prod.fst

/-- The bucket stored for a key (`[]` when the key is absent). -/
def bucket (m : SubjectsMap) (k : String) : List ExamFile :=
  match m with
  | [] => []
  | (k', xs) :: rest => if k' = k then xs else bucket rest k

/-- The `filepath.Walk` loop of `readExamFiles` over the remaining entries:
threads the grouping map, stops at the first callback error, and collects
the printed empty-file warnings. -/
def walkFold (lib : ParserLib) :
    SubjectsMap → List WalkEntry → List String × Except String SubjectsMap
  | m, [] => ([], .ok m)
  | m, e :: rest =>
    match processEntry lib e with
    | .abort msg => ([], .error msg)
    | .skip => walkFold lib m rest
    | .warnEmpty w =>
      let r := walkFold lib m rest
      (w :: r.1, r.2)
    | .keep k x => walkFold lib (mapAppend m k x) rest

/-- The final `for subjectName, exams := range subjectsMap` loop, for a
given map iteration order: one `Subject` per yielded key. -/
def subjectsOfMap (m : SubjectsMap) (ord : List String) : List Subject :=
  ord.map (fun k => ⟨k, bucket m k⟩)

/-- The function `readExamFiles`, parameterized by the decoders, the traversal sequence
of the file tree, and the Go map iteration order `ord` used by the final
conversion loop (run-dependent; valid iterations are exactly the
permutations of `aggKeys lib tree`). -/
def readExamFiles (lib : ParserLib) (tree : List WalkEntry) (ord : List String) :
    Except String (List Subject) :=
  match (walkFold lib [] tree).2 with
  | .error e => .error e
  | .ok m => .ok (subjectsOfMap m ord)

/-- The warnings `readExamFiles` prints to stdout. -/
def readWarnings (lib : ParserLib) (tree : List WalkEntry) : List String :=
  (walkFold lib [] tree).1

/-- The key set of the grouping map built by a (successful) walk, in
first-seen order; `[]` when the walk aborts. -/
def aggKeys (lib : ParserLib) (tree : List WalkEntry) : List String :=
  match (walkFold lib [] tree).2 with
  | .error _ => []
  | .ok m => mapKeys m

/-- The result of `readExamFiles` under the iteration order the spec assumes: keys in
first-seen order. -/
def readExamFilesFirstSeen (lib : ParserLib) (tree : List WalkEntry) :
    Except String (List Subject) :=
  match (walkFold lib [] tree).2 with
  | .error e => .error e
  | .ok m => .ok (subjectsOfMap m (mapKeys m))

/-- An entry the callback survives (does not abort on). -/
def entryOk (lib : ParserLib) (e : WalkEntry) : Bool :=
  match processEntry lib e with
  | .abort _ => false
  | _ => true

/-- The (subject key, exam) pairs the walk appends, in traversal order. -/
def keptPairs (lib : ParserLib) (tree : List WalkEntry) :
    List (String × ExamFile) :=
  tree.filterMap (fun e =>
    match processEntry lib e with
    | .keep k x => some (k, x)
    | _ => none)

/-- Append a sequence of (key, exam) pairs into the grouping map. -/
def mapInsertAll (m : SubjectsMap) (ps : List (String × ExamFile)) : SubjectsMap :=
  ps.foldl (fun m p => mapAppend m p.1 p.2) m

/-- The grouping map a fully successful walk of `tree` builds. -/
def finalMap (lib : ParserLib) (tree : List WalkEntry) : SubjectsMap :=
  mapInsertAll [] (keptPairs lib tree)

/-- All buckets of a map are non-empty. -/
abbrev mapWF (m : SubjectsMap) : Prop :=
  ∀ p ∈ m, p.2 ≠ ([] : List ExamFile)

/-- Key list produced by iterating `mapAppend` over a pair sequence,
starting from an existing key list: first occurrences in encounter order. -/
def keysAfter (ks : List String) (ps : List String) : List String :=
  ps.foldl (fun acc k => if k ∈ acc then acc else acc ++ [k]) ks

/-- A regular file whose extension matches and whose (readable) content is
non-empty: exactly the entries that become `ExamEntry` values on a
successful aggregation. -/
def matchingNonEmpty (e : WalkEntry) : Bool :=
  !e.isDir && (goExt e.path == ".json" || goExt e.path == ".jsonc") &&
    (match e.content with
     | .ok c => c.length != 0
     | .error _ => false)

/-- Number of matching non-empty files in the tree. -/
def countMatchingNonEmpty (tree : List WalkEntry) : Nat :=
  tree.countP (fun e => matchingNonEmpty e)

/-- Total number of `ExamFile` entries across all subjects of a result. -/
def totalExams (subs : List Subject) : Nat :=
  (subs.map (fun s => s.exams.length)).sum

/-! ## HTTP adapter and gzip middleware (`serveExamFiles`, `gzipMiddleware`) -/

/-- Does `sub` occur as a leading block of `s`? -/
def charsStartWith : List Char → List Char → Bool
  | [], _ => true
  | _ :: _, [] => false
  | c :: cs, d :: ds => (c == d) && charsStartWith cs ds

/-- Does `sub` occur anywhere inside `s`? -/
def charsContain (sub : List Char) : List Char → Bool
  | [] => charsStartWith sub []
  | c :: rest => charsStartWith sub (c :: rest) || charsContain sub rest

/-- Go's `strings.Contains(s, sub)`. -/
def goContains (s sub : String) : Bool :=
  charsContain sub.data s.data

/-- The request data the middleware inspects: the `Accept-Encoding`
header value (`""` when the header is absent). -/
structure Request where
  acceptEncoding : String

/-- The response assembled through the `http.ResponseWriter`: final header
set, status code and written body. -/
structure Response where
  headers : List (String × String)
  status : Nat
  body : String

/-- Go's `Header().Set(k, v)`: replace an existing entry in place, or append. -/
def setHeader (hs : List (String × String)) (k v : String) :
    List (String × String) :=
  match hs with
  | [] => [(k, v)]
  | (k', v') :: rest =>
    if k' = k then (k, v) :: rest else (k', v') :: setHeader rest k v

/-- Go's `Header().Del(k)`. -/
def delHeader (hs : List (String × String)) (k : String) :
    List (String × String) :=
  hs.filter (fun p => p.1 != k)

/-- Value of a response header, if present. -/
def headerValue (r : Response) (k : String) : Option String :=
  (r.headers.find? (fun p => p.1 == k)).map Prod.snd

/-- Go's `http.Error(w, msg, 500)` from the standard library: deletes
`Content-Length`, sets `Content-Type: text/plain; charset=utf-8` and
`X-Content-Type-Options: nosniff`, writes status 500 and the message as a
plain-text line (`fmt.Fprintln` appends a newline). -/
def httpError (hs : List (String × String)) (msg : String) : Response :=
  { headers := setHeader (setHeader (delHeader hs "Content-Length")
      "Content-Type" "text/plain; charset=utf-8") "X-Content-Type-Options" "nosniff",
    status := 500,
    body := msg ++ "\n" }

/-- The handler `serveExamFiles`, started from header state `hs₀` (the headers already
set on the `ResponseWriter` it receives, e.g. by `gzipMiddleware`).  It is
parameterized by the aggregation inputs and by the serializer
`encode` (`json.NewEncoder(w).Encode`, which buffers the whole encoding
before writing, so a failed encode writes no payload bytes). -/
def serveExamFilesW (hs₀ : List (String × String)) (lib : ParserLib)
    (tree : List WalkEntry) (ord : List String)
    (encode : List Subject → Except String String) : Response :=
  let hs := setHeader hs₀ "Content-Type" "application/json"
  match readExamFiles lib tree ord with
  | .error e => httpError hs ("Failed to read exam files: " ++ e)
  | .ok subjects =>
    match encode subjects with
    | .error e => httpError hs ("Failed to encode response: " ++ e)
    | .ok body => { headers := hs, status := 200, body := body }

/-- The handler `serveExamFiles` on a fresh `ResponseWriter` (no preset headers). -/
def serveExamFiles (lib : ParserLib) (tree : List WalkEntry) (ord : List String)
    (encode : List Subject → Except String String) : Response :=
  serveExamFilesW [] lib tree ord encode

/-- The middleware `gzipMiddleware`: when the request's `Accept-Encoding` contains
`"gzip"`, set `Content-Encoding: gzip`, run the inner handler with every
body write routed through the gzip writer (`comp` is the compression the
`gzip.Writer` applies to the written bytes), and drop any `Content-Length`
(as `gzipResponseWriter.WriteHeader` does — the inner handler here never
sets one); otherwise run the handler untouched.  The inner handler is a
function of the preset header state and the request. -/
def gzipMiddleware (comp : String → String)
    (next : List (String × String) → Request → Response) (r : Request) :
    Response :=
  if goContains r.acceptEncoding "gzip" then
    let resp := next (setHeader [] "Content-Encoding" "gzip") r
    { headers := delHeader resp.headers "Content-Length",
      status := resp.status,
      body := comp resp.body }
  else
    next [] r

/-- The `/api/exams` handler as the middleware sees it: a function of the
preset header state and the request. -/
def examsHandler (lib : ParserLib) (tree : List WalkEntry) (ord : List String)
    (encode : List Subject → Except String String) :
    List (String × String) → Request → Response :=
  fun hs _ => serveExamFilesW hs lib tree ord encode

/-- The route registration `http.Handle("/api/exams", gzipMiddleware(serveExamFiles))`. -/
def gzipExams (comp : String → String) (lib : ParserLib)
    (tree : List WalkEntry) (ord : List String)
    (encode : List Subject → Except String String) : Request → Response :=
  gzipMiddleware comp (examsHandler lib tree ord encode)

/-! ## Concrete instances used by counterexamples and witnesses -/

/-- A concrete decoder pair for concrete runs: a byte string is
"malformed" exactly when it contains the byte 33 (`!`). -/
def mockLib : ParserLib where
  parseJson := fun bs =>
    if bs.contains 33 then .error "invalid character" else .ok (.num bs.length)
  parseJsonc := fun bs =>
    if bs.contains 33 then .error "invalid character" else .ok (.num (bs.length + 100))

/-- A regular readable file with the given content bytes. -/
def fileEntry (p : List String) (bs : List Nat) : WalkEntry :=
  ⟨p, false, none, .ok bs⟩

/-- A directory entry. -/
def dirEntry (p : List String) : WalkEntry :=
  ⟨p, true, none, .ok []⟩

/-- A concrete serializer for concrete runs. -/
def mockEncode : List Subject → Except String String :=
  fun subs => .ok (String.intercalate "," (subs.map Subject.name))

/-- Traversal of a tree with two subject directories, `json/a` seen before
`json/b`. -/
def treeC1 : List WalkEntry :=
  [dirEntry ["json"],
   dirEntry ["json", "a"], fileEntry ["json", "a", "x.json"] [48],
   dirEntry ["json", "b"], fileEntry ["json", "b", "y.json"] [49]]

/-- Traversal of a tree with one matching file directly in the root
directory `json` itself. -/
def treeRoot : List WalkEntry :=
  [⟨["json"], true, none, .ok []⟩,
   ⟨["json", "root.json"], false, none, .ok [48]⟩]

/-- Traversal of a tree whose two files live in the distinct directories
`json/x/m` and `json/y/m`, which share the base name `m`. -/
def treeC2 : List WalkEntry :=
  [dirEntry ["json"],
   dirEntry ["json", "x"], dirEntry ["json", "x", "m"],
   fileEntry ["json", "x", "m", "a.json"] [48],
   dirEntry ["json", "y"], dirEntry ["json", "y", "m"],
   fileEntry ["json", "y", "m", "b.json"] [49]]

/-! ## Lemmas on the grouping map -/

/-- Appending to a key's bucket grows exactly that bucket. -/
theorem bucket_mapAppend_self (m : SubjectsMap) (k : String) (x : ExamFile) :
    bucket (mapAppend m k x) k = bucket m k ++ [x] := by
  induction m with
  | nil => simp [mapAppend, bucket]
  | cons p rest ih =>
    obtain ⟨k', xs⟩ := p
    by_cases h : k' = k
    · subst h
      simp [mapAppend, bucket]
    · simp [mapAppend, bucket, h, ih]

/-- Appending to one key leaves the other buckets unchanged. -/
theorem bucket_mapAppend_ne (m : SubjectsMap) (k : String) (x : ExamFile)
    (k' : String) (h : k' ≠ k) :
    bucket (mapAppend m k x) k' = bucket m k' := by
  induction m with
  | nil => simp [mapAppend, bucket, Ne.symm h]
  | cons p rest ih =>
    obtain ⟨k₀, xs⟩ := p
    by_cases hk : k₀ = k
    · subst hk
      simp [mapAppend, bucket, Ne.symm h]
    · simp [mapAppend, bucket, hk, ih]

/-- Inserting appends a fresh key at the end, and keeps old keys in place. -/
theorem mapKeys_mapAppend (m : SubjectsMap) (k : String) (x : ExamFile) :
    mapKeys (mapAppend m k x) =
      if k ∈ mapKeys m then mapKeys m else mapKeys m ++ [k] := by
  induction m with
  | nil => simp [mapAppend, mapKeys]
  | cons p rest ih =>
    obtain ⟨k₀, xs⟩ := p
    by_cases hk : k₀ = k
    · subst hk
      simp [mapAppend, mapKeys]
    · have hk' : ¬ k = k₀ := fun hh => hk hh.symm
      have h1 : mapKeys (mapAppend ((k₀, xs) :: rest) k x)
          = k₀ :: mapKeys (mapAppend rest k x) := by
        simp [mapAppend, hk, mapKeys]
      have h2 : (k ∈ mapKeys ((k₀, xs) :: rest)) ↔ k ∈ mapKeys rest := by
        simp [mapKeys, hk']
      rw [h1, ih]
      by_cases hmem : k ∈ mapKeys rest
      · rw [if_pos hmem, if_pos (h2.mpr hmem)]
        rfl
      · rw [if_neg hmem, if_neg (fun hh => hmem (h2.mp hh))]
        rfl

/-- A present key's bucket is literally one of the map's entries. -/
theorem mem_of_bucket (m : SubjectsMap) (k : String) (h : k ∈ mapKeys m) :
    (k, bucket m k) ∈ m := by
  induction m with
  | nil => simp [mapKeys] at h
  | cons p rest ih =>
    obtain ⟨k₀, xs⟩ := p
    by_cases hk : k₀ = k
    · subst hk
      simp [bucket]
    · have hmem : k ∈ mapKeys rest := by
        have hk' : ¬ k = k₀ := fun hh => hk hh.symm
        simpa [mapKeys, hk'] using h
      have hb : bucket ((k₀, xs) :: rest) k = bucket rest k := by
        simp [bucket, hk]
      rw [hb]
      exact List.mem_cons_of_mem _ (ih hmem)

theorem mapWF_nil : mapWF ([] : SubjectsMap) := by
  intro p hp
  simp at hp

theorem mapWF_mapAppend (m : SubjectsMap) (k : String) (x : ExamFile)
    (h : mapWF m) : mapWF (mapAppend m k x) := by
  induction m with
  | nil =>
    intro p hp
    simp [mapAppend] at hp
    subst hp
    simp
  | cons q rest ih =>
    obtain ⟨k₀, xs⟩ := q
    by_cases hk : k₀ = k
    · subst hk
      intro p hp
      simp [mapAppend] at hp
      rcases hp with hp | hp
      · subst hp; simp
      · exact h p (by simp [hp])
    · intro p hp
      simp [mapAppend, hk] at hp
      rcases hp with hp | hp
      · subst hp
        exact h (k₀, xs) (by simp)
      · have hrest : mapWF rest := fun q hq => h q (by simp [hq])
        exact ih hrest p hp

theorem keysAfter_nil (ks : List String) : keysAfter ks [] = ks := rfl

theorem keysAfter_cons (ks : List String) (k : String) (ps : List String) :
    keysAfter ks (k :: ps) =
      keysAfter (if k ∈ ks then ks else ks ++ [k]) ps := rfl

theorem mem_keysAfter (ks ps : List String) (k : String) :
    k ∈ keysAfter ks ps ↔ k ∈ ks ∨ k ∈ ps := by
  induction ps generalizing ks with
  | nil => simp [keysAfter]
  | cons p ps ih =>
    rw [keysAfter_cons, ih]
    by_cases hp : p ∈ ks
    · by_cases hk : k = p
      · subst hk; simp [hp]
      · simp [hp, hk]
    · by_cases hk : k = p
      · subst hk; simp [hp]
      · simp [hp, hk]

theorem nodup_keysAfter (ks ps : List String) (h : ks.Nodup) :
    (keysAfter ks ps).Nodup := by
  induction ps generalizing ks with
  | nil => simpa [keysAfter] using h
  | cons p ps ih =>
    rw [keysAfter_cons]
    by_cases hp : p ∈ ks
    · simpa [hp] using ih ks h
    · refine ih _ ?_
      simpa [hp, List.nodup_append] using h

theorem mapInsertAll_nil (m : SubjectsMap) : mapInsertAll m [] = m := rfl

theorem mapInsertAll_cons (m : SubjectsMap) (p : String × ExamFile)
    (ps : List (String × ExamFile)) :
    mapInsertAll m (p :: ps) = mapInsertAll (mapAppend m p.1 p.2) ps := rfl

/-- Each bucket of the inserted map: old bucket, then the pairs with that
key in encounter order. -/
theorem bucket_mapInsertAll (m : SubjectsMap) (ps : List (String × ExamFile))
    (k : String) :
    bucket (mapInsertAll m ps) k =
      bucket m k ++ (ps.filter (fun p => p.1 == k)).map Prod.snd := by
  induction ps generalizing m with
  | nil => simp [mapInsertAll]
  | cons p ps ih =>
    rw [mapInsertAll_cons, ih]
    by_cases hk : p.1 = k
    · subst hk
      simp [bucket_mapAppend_self]
    · simp [bucket_mapAppend_ne m p.1 p.2 k (Ne.symm hk), hk]

/-- Key list of the inserted map: old keys, then fresh keys in first-seen
order. -/
theorem mapKeys_mapInsertAll (m : SubjectsMap) (ps : List (String × ExamFile)) :
    mapKeys (mapInsertAll m ps) = keysAfter (mapKeys m) (ps.map Prod.fst) := by
  induction ps generalizing m with
  | nil => simp [mapInsertAll, keysAfter]
  | cons p ps ih =>
    rw [mapInsertAll_cons, ih, List.map_cons, keysAfter_cons, mapKeys_mapAppend]

theorem mapWF_mapInsertAll (m : SubjectsMap) (ps : List (String × ExamFile))
    (h : mapWF m) : mapWF (mapInsertAll m ps) := by
  induction ps generalizing m with
  | nil => simpa [mapInsertAll] using h
  | cons p ps ih =>
    rw [mapInsertAll_cons]
    exact ih _ (mapWF_mapAppend _ _ _ h)

/-! ## Lemmas on the walk -/

/-- A successful walk is exactly a walk whose every entry survives the
callback; the resulting grouping map is the bulk insertion of the kept
(key, exam) pairs in traversal order. -/
theorem walkFold_ok_iff (lib : ParserLib) (tree : List WalkEntry)
    (m m' : SubjectsMap) :
    (walkFold lib m tree).2 = .ok m' ↔
      (tree.all (entryOk lib) = true ∧ m' = mapInsertAll m (keptPairs lib tree)) := by
  induction tree generalizing m with
  | nil =>
    simp [walkFold, keptPairs, mapInsertAll, eq_comm]
  | cons e rest ih =>
    cases hpe : processEntry lib e with
    | abort msg =>
      simp [walkFold, hpe, entryOk, keptPairs]
    | skip =>
      simp [walkFold, hpe, entryOk, keptPairs, List.filterMap_cons, ih]
    | warnEmpty w =>
      simp [walkFold, hpe, entryOk, keptPairs, List.filterMap_cons, ih]
    | keep k x =>
      simp [walkFold, hpe, entryOk, keptPairs, List.filterMap_cons, ih,
        mapInsertAll_cons]

/-- Splitting a walk at a successfully processed segment: warnings and
final state compose. -/
theorem walkFold_append_ok (lib : ParserLib) (xs ys : List WalkEntry)
    (m m₁ : SubjectsMap) (h : (walkFold lib m xs).2 = .ok m₁) :
    walkFold lib m (xs ++ ys) =
      ((walkFold lib m xs).1 ++ (walkFold lib m₁ ys).1,
        (walkFold lib m₁ ys).2) := by
  induction xs generalizing m with
  | nil =>
    simp [walkFold] at h
    subst h
    simp [walkFold]
  | cons e rest ih =>
    cases hpe : processEntry lib e with
    | abort msg =>
      simp [walkFold, hpe] at h
    | skip =>
      simp only [walkFold, hpe, List.cons_append] at h ⊢
      exact ih m h
    | warnEmpty w =>
      simp only [walkFold, hpe, List.cons_append, List.append_eq] at h ⊢
      rw [ih m h]
    | keep k x =>
      simp only [walkFold, hpe, List.cons_append] at h ⊢
      exact ih _ h

/-- A walk that aborts in a prefix ignores the rest of the tree. -/
theorem walkFold_append_error (lib : ParserLib) (xs ys : List WalkEntry)
    (m : SubjectsMap) (msg : String)
    (h : (walkFold lib m xs).2 = .error msg) :
    (walkFold lib m (xs ++ ys)).2 = .error msg := by
  induction xs generalizing m with
  | nil => simp [walkFold] at h
  | cons e rest ih =>
    cases hpe : processEntry lib e with
    | abort m' =>
      simp [walkFold, hpe] at h ⊢
      exact h
    | skip =>
      simp only [walkFold, hpe, List.cons_append] at h ⊢
      exact ih m h
    | warnEmpty w =>
      simp only [walkFold, hpe, List.cons_append] at h ⊢
      exact ih m h
    | keep k x =>
      simp only [walkFold, hpe, List.cons_append] at h ⊢
      exact ih _ h

/-! ## Lemmas on the walk callback -/

/-- The callback keeps a matching, readable, non-empty, parseable file,
with the parent directory's base name as subject key and the file's base
name as entry name. -/
theorem processEntry_keep_of (lib : ParserLib) (e : WalkEntry)
    (c : List Nat) (v : JsonValue)
    (hw : e.walkErr = none) (hd : e.isDir = false)
    (hx : (goExt e.path == ".json" || goExt e.path == ".jsonc") = true)
    (hc : e.content = .ok c) (hne : c ≠ [])
    (hp : parseFor lib (goExt e.path) c = .ok v) :
    processEntry lib e = .keep (goBase (goDir e.path)) ⟨goBase e.path, v⟩ := by
  have hlen : (c.length == 0) = false := by
    simp [hne]
  rw [processEntry, hw]
  simp only [hd, hx, Bool.not_false, Bool.true_and, if_pos]
  rw [hc]
  simp only [hlen, Bool.false_eq_true, if_false, hp]

/-- The callback aborts on a matching, readable, non-empty file whose
content fails to parse, with the wrapped parse-error message. -/
theorem processEntry_abort_parse (lib : ParserLib) (e : WalkEntry)
    (c : List Nat) (msg : String)
    (hw : e.walkErr = none) (hd : e.isDir = false)
    (hx : (goExt e.path == ".json" || goExt e.path == ".jsonc") = true)
    (hc : e.content = .ok c) (hne : c ≠ [])
    (hp : parseFor lib (goExt e.path) c = .error msg) :
    processEntry lib e = .abort (parseErrMsg (goExt e.path) e.path msg) := by
  have hlen : (c.length == 0) = false := by
    simp [hne]
  rw [processEntry, hw]
  simp only [hd, hx, Bool.not_false, Bool.true_and, if_pos]
  rw [hc]
  simp only [hlen, Bool.false_eq_true, if_false, hp]

/-- The callback warns and skips a matching empty file. -/
theorem processEntry_warnEmpty_of (lib : ParserLib) (e : WalkEntry)
    (hw : e.walkErr = none) (hd : e.isDir = false)
    (hx : (goExt e.path == ".json" || goExt e.path == ".jsonc") = true)
    (hc : e.content = .ok []) :
    processEntry lib e =
      .warnEmpty ("Warning: Skipping empty file " ++ pathToString e.path ++ "\n") := by
  rw [processEntry, hw]
  simp only [hd, hx, Bool.not_false, Bool.true_and, if_pos]
  rw [hc]
  simp

/-- The callback skips directories and files with unrecognized extensions
(when the walk passes no error for the entry). -/
theorem processEntry_skip_of (lib : ParserLib) (e : WalkEntry)
    (hw : e.walkErr = none)
    (h : e.isDir = true ∨ (goExt e.path ≠ ".json" ∧ goExt e.path ≠ ".jsonc")) :
    processEntry lib e = .skip := by
  rw [processEntry, hw]
  rcases h with hd | ⟨h1, h2⟩
  · simp [hd]
  · simp [h1, h2]

/-- Whatever the callback keeps is named after the file and keyed by the
containing directory's base name. -/
theorem processEntry_keep_inv (lib : ParserLib) (e : WalkEntry)
    (k : String) (x : ExamFile) (h : processEntry lib e = .keep k x) :
    k = goBase (goDir e.path) ∧ x.name = goBase e.path := by
  obtain ⟨p, d, w, ct⟩ := e
  rcases w with - | msg
  · simp only [processEntry] at h
    by_cases hcond : (!d && (goExt p == ".json" || goExt p == ".jsonc")) = true
    · rw [if_pos hcond] at h
      rcases ct with msg | c
      · cases h
      · simp only [] at h
        by_cases hlen : (c.length == 0) = true
        · rw [if_pos hlen] at h
          cases h
        · rw [if_neg hlen] at h
          rcases hp : parseFor lib (goExt p) c with msg | v
          · rw [hp] at h
            cases h
          · rw [hp] at h
            cases h
            exact ⟨rfl, rfl⟩
    · rw [if_neg hcond] at h
      cases h
  · simp only [processEntry] at h
    cases h

/-- An entry the callback survives is kept exactly when it is a matching
non-empty (readable) file. -/
theorem keep_iff_matching (lib : ParserLib) (e : WalkEntry)
    (hok : entryOk lib e = true) :
    (∃ k x, processEntry lib e = .keep k x) ↔ matchingNonEmpty e = true := by
  obtain ⟨p, d, w, ct⟩ := e
  rcases w with - | msg
  · by_cases hcond : (!d && (goExt p == ".json" || goExt p == ".jsonc")) = true
    · rcases ct with msg | c
      · exfalso
        rw [entryOk] at hok
        simp only [processEntry, if_pos hcond] at hok
        simp at hok
      · by_cases hlen : (c.length == 0) = true
        · have h1 : processEntry lib ⟨p, d, none, .ok c⟩ =
              .warnEmpty ("Warning: Skipping empty file " ++ pathToString p ++ "\n") := by
            simp only [processEntry, if_pos hcond, if_pos hlen]
          constructor
          · rintro ⟨k, x, hk⟩
            rw [h1] at hk
            cases hk
          · intro hm
            exfalso
            rw [matchingNonEmpty] at hm
            simp only [Bool.and_eq_true, bne_iff_ne, ne_eq] at hm
            exact hm.2 (by simpa using hlen)
        · rcases hp : parseFor lib (goExt p) c with msg | v
          · exfalso
            rw [entryOk] at hok
            simp only [processEntry, if_pos hcond, if_neg hlen, hp] at hok
            simp at hok
          · have h1 : processEntry lib ⟨p, d, none, .ok c⟩ =
                .keep (goBase (goDir p)) ⟨goBase p, v⟩ := by
              simp only [processEntry, if_pos hcond, if_neg hlen, hp]
            constructor
            · rintro ⟨k, x, hk⟩
              rw [matchingNonEmpty]
              simp only [Bool.and_eq_true, bne_iff_ne, ne_eq]
              exact ⟨Bool.and_eq_true _ _ |>.mp hcond, by simpa using hlen⟩
            · intro hm
              exact ⟨_, _, h1⟩
    · have h1 : processEntry lib ⟨p, d, none, ct⟩ = .skip := by
        simp only [processEntry, if_neg hcond]
      constructor
      · rintro ⟨k, x, hk⟩
        rw [h1] at hk
        cases hk
      · intro hm
        exfalso
        rw [matchingNonEmpty] at hm
        simp only [Bool.and_eq_true] at hm
        exact hcond (by simp [hm.1.1, hm.1.2])
  · exfalso
    rw [entryOk] at hok
    simp only [processEntry] at hok
    simp at hok

/-! ## Characterizations of `readExamFiles` -/

/-- The function `readExamFiles` succeeds exactly when no entry aborts, and then
returns the map of kept pairs rendered in the given iteration order. -/
theorem readExamFiles_ok_iff (lib : ParserLib) (tree : List WalkEntry)
    (ord : List String) (subs : List Subject) :
    readExamFiles lib tree ord = .ok subs ↔
      (tree.all (entryOk lib) = true ∧
        subs = subjectsOfMap (finalMap lib tree) ord) := by
  cases h : (walkFold lib [] tree).2 with
  | error e =>
    constructor
    · intro hc
      simp only [readExamFiles, h] at hc
      exact absurd hc (by simp)
    · rintro ⟨hall, -⟩
      have h2 := (walkFold_ok_iff lib tree [] (finalMap lib tree)).mpr ⟨hall, rfl⟩
      rw [h] at h2
      cases h2
  | ok m =>
    obtain ⟨hall, hm⟩ := (walkFold_ok_iff lib tree [] m).mp h
    constructor
    · intro hc
      simp only [readExamFiles, h, Except.ok.injEq] at hc
      exact ⟨hall, by rw [← hc, finalMap, ← hm]⟩
    · rintro ⟨-, rfl⟩
      simp only [readExamFiles, h, Except.ok.injEq]
      rw [finalMap, ← hm]

/-- A walk abort surfaces as the aggregation's error. -/
theorem readExamFiles_error_of (lib : ParserLib) (tree : List WalkEntry)
    (ord : List String) (msg : String)
    (h : (walkFold lib [] tree).2 = .error msg) :
    readExamFiles lib tree ord = .error msg := by
  simp only [readExamFiles, h]

/-- On a fully successful walk the key set is the kept pairs' keys in
first-seen order. -/
theorem aggKeys_eq (lib : ParserLib) (tree : List WalkEntry)
    (hall : tree.all (entryOk lib) = true) :
    aggKeys lib tree = mapKeys (finalMap lib tree) := by
  have h := (walkFold_ok_iff lib tree [] (finalMap lib tree)).mpr ⟨hall, rfl⟩
  simp only [aggKeys, h]

/-- Every kept file appears, under its subject key, in the returned
subject list (for any valid map iteration order). -/
theorem keep_in_result (lib : ParserLib) (tree : List WalkEntry)
    (ord : List String) (subs : List Subject) (e : WalkEntry)
    (k : String) (x : ExamFile)
    (hres : readExamFiles lib tree ord = .ok subs)
    (hord : List.Perm ord (aggKeys lib tree))
    (he : e ∈ tree) (hk : processEntry lib e = .keep k x) :
    ∃ s ∈ subs, s.name = k ∧ x ∈ s.exams := by
  obtain ⟨hall, rfl⟩ := (readExamFiles_ok_iff _ _ _ _).mp hres
  have hkmem : (k, x) ∈ keptPairs lib tree := by
    rw [keptPairs]
    refine List.mem_filterMap.mpr ⟨e, he, ?_⟩
    rw [hk]
  have hkeys : k ∈ mapKeys (finalMap lib tree) := by
    rw [finalMap, mapKeys_mapInsertAll, mem_keysAfter]
    exact Or.inr (List.mem_map.mpr ⟨(k, x), hkmem, rfl⟩)
  have hkord : k ∈ ord := by
    rw [aggKeys_eq lib tree hall] at hord
    exact hord.mem_iff.mpr hkeys
  refine ⟨⟨k, bucket (finalMap lib tree) k⟩, ?_, rfl, ?_⟩
  · rw [subjectsOfMap]
    exact List.mem_map.mpr ⟨k, hkord, rfl⟩
  · rw [finalMap, bucket_mapInsertAll]
    simp only [bucket, List.nil_append]
    exact List.mem_map.mpr ⟨(k, x), List.mem_filter.mpr ⟨hkmem, by simp⟩, rfl⟩

/-- Counting: when every pair's key is covered by a duplicate-free key
list, the per-key filtered lengths sum to the total. -/
theorem sum_bucket_lengths (ks : List String) (ps : List (String × ExamFile))
    (hnd : ks.Nodup) (hcov : ∀ p ∈ ps, p.1 ∈ ks) :
    (ks.map (fun k => (ps.filter (fun p => p.1 == k)).length)).sum = ps.length := by
  induction ks generalizing ps with
  | nil =>
    cases ps with
    | nil => simp
    | cons p ps => exact absurd (hcov p (by simp)) (by simp)
  | cons k ks ih =>
    rw [List.map_cons, List.sum_cons]
    have hsplit : (ps.filter (fun p => p.1 == k)).length +
        (ps.filter (fun p => !(p.1 == k))).length = ps.length := by
      simpa using (List.filter_append_perm (fun p => p.1 == k) ps).length_eq
    rw [← hsplit]
    congr 1
    have hmap : ks.map (fun k' => (ps.filter (fun p => p.1 == k')).length)
        = ks.map (fun k' =>
            ((ps.filter (fun p => !(p.1 == k))).filter (fun p => p.1 == k')).length) := by
      refine List.map_congr_left ?_
      intro k' hk'
      have hkk : k' ≠ k := by
        rintro rfl
        exact (List.nodup_cons.mp hnd).1 hk'
      rw [List.filter_filter]
      have hfe : ∀ p ∈ ps, ((p.1 == k') && !(p.1 == k)) = (p.1 == k') := by
        intro p hp
        by_cases hh : p.1 = k'
        · simp [hh, hkk]
        · simp [hh]
      rw [List.filter_congr hfe]
    rw [hmap]
    refine ih _ (List.nodup_cons.mp hnd).2 ?_
    intro p hp
    obtain ⟨hpm, hpk⟩ := List.mem_filter.mp hp
    rcases List.mem_cons.mp (hcov p hpm) with h | h
    · exact absurd (by simpa using h) (by simpa using hpk)
    · exact h

/-- On a fully surviving walk the kept pairs are exactly the matching
non-empty files, one each. -/
theorem keptPairs_length (lib : ParserLib) (tree : List WalkEntry)
    (hall : tree.all (entryOk lib) = true) :
    (keptPairs lib tree).length = countMatchingNonEmpty tree := by
  induction tree with
  | nil => simp [keptPairs, countMatchingNonEmpty]
  | cons e rest ih =>
    rw [List.all_cons, Bool.and_eq_true] at hall
    obtain ⟨hoke, hallr⟩ := hall
    have hiff := keep_iff_matching lib e hoke
    cases hpe : processEntry lib e with
    | abort msg =>
      rw [entryOk, hpe] at hoke
      simp at hoke
    | skip =>
      have hm : matchingNonEmpty e = false := by
        cases hmm : matchingNonEmpty e with
        | false => rfl
        | true =>
          obtain ⟨k, x, hk⟩ := hiff.mpr hmm
          rw [hpe] at hk
          cases hk
      have hkp : keptPairs lib (e :: rest) = keptPairs lib rest := by
        simp only [keptPairs, List.filterMap_cons, hpe]
      have hcm : countMatchingNonEmpty (e :: rest) =
          countMatchingNonEmpty rest + (if matchingNonEmpty e = true then 1 else 0) := by
        simp only [countMatchingNonEmpty, List.countP_cons]
      rw [hkp, hcm, hm]
      simp [ih hallr]
    | warnEmpty w =>
      have hm : matchingNonEmpty e = false := by
        cases hmm : matchingNonEmpty e with
        | false => rfl
        | true =>
          obtain ⟨k, x, hk⟩ := hiff.mpr hmm
          rw [hpe] at hk
          cases hk
      have hkp : keptPairs lib (e :: rest) = keptPairs lib rest := by
        simp only [keptPairs, List.filterMap_cons, hpe]
      have hcm : countMatchingNonEmpty (e :: rest) =
          countMatchingNonEmpty rest + (if matchingNonEmpty e = true then 1 else 0) := by
        simp only [countMatchingNonEmpty, List.countP_cons]
      rw [hkp, hcm, hm]
      simp [ih hallr]
    | keep k x =>
      have hm : matchingNonEmpty e = true := hiff.mp ⟨k, x, hpe⟩
      have hkp : keptPairs lib (e :: rest) = (k, x) :: keptPairs lib rest := by
        simp only [keptPairs, List.filterMap_cons, hpe]
      have hcm : countMatchingNonEmpty (e :: rest) =
          countMatchingNonEmpty rest + (if matchingNonEmpty e = true then 1 else 0) := by
        simp only [countMatchingNonEmpty, List.countP_cons]
      rw [hkp, hcm, hm, List.length_cons, ih hallr]
      simp

/-! ## The claims -/

/-- C9: every Subject in a successfully returned AggregationResult
contains at least one ExamEntry — a grouping bucket is created only when
its first entry is appended, so no Subject with an empty exams list ever
appears in the result. -/
theorem claim9_subject_exams_nonempty (lib : ParserLib) (tree : List WalkEntry)
    (ord : List String) (subs : List Subject) (s : Subject)
    (hres : readExamFiles lib tree ord = .ok subs)
    (hord : List.Perm ord (aggKeys lib tree))
    (hs : s ∈ subs) :
    s.exams ≠ [] := by
  obtain ⟨hall, rfl⟩ := (readExamFiles_ok_iff _ _ _ _).mp hres
  rw [subjectsOfMap] at hs
  obtain ⟨k, hkord, rfl⟩ := List.mem_map.mp hs
  have hkeys : k ∈ mapKeys (finalMap lib tree) := by
    rw [aggKeys_eq lib tree hall] at hord
    exact hord.mem_iff.mp hkord
  have hwf : mapWF (finalMap lib tree) := mapWF_mapInsertAll _ _ mapWF_nil
  exact hwf _ (mem_of_bucket _ _ hkeys)

/-- C10: a matching non-empty well-formed file placed directly in the root
directory `json` is included in the result, under a Subject named after
the root directory's own base name `"json"`. -/
theorem claim10_root_file_under_json (lib : ParserLib) (tree : List WalkEntry)
    (ord : List String) (subs : List Subject) (fname : String)
    (c : List Nat) (v : JsonValue)
    (hres : readExamFiles lib tree ord = .ok subs)
    (hord : List.Perm ord (aggKeys lib tree))
    (he : (⟨["json", fname], false, none, .ok c⟩ : WalkEntry) ∈ tree)
    (hx : (goExt ["json", fname] == ".json" || goExt ["json", fname] == ".jsonc") = true)
    (hne : c ≠ [])
    (hp : parseFor lib (goExt ["json", fname]) c = .ok v) :
    ∃ s ∈ subs, s.name = "json" ∧ (⟨fname, v⟩ : ExamFile) ∈ s.exams := by
  have hkeep : processEntry lib ⟨["json", fname], false, none, .ok c⟩ =
      .keep "json" ⟨fname, v⟩ :=
    processEntry_keep_of lib ⟨["json", fname], false, none, .ok c⟩ c v
      rfl rfl hx rfl hne hp
  exact keep_in_result lib tree ord subs _ "json" ⟨fname, v⟩ hres hord he hkeep

/-- C4: when aggregation succeeds (every matching non-empty file
well-formed), the total number of ExamEntry values across all Subjects
equals the number of matching non-empty files in the tree. -/
theorem claim4_total_entry_count (lib : ParserLib) (tree : List WalkEntry)
    (ord : List String) (subs : List Subject)
    (hres : readExamFiles lib tree ord = .ok subs)
    (hord : List.Perm ord (aggKeys lib tree)) :
    totalExams subs = countMatchingNonEmpty tree := by
  obtain ⟨hall, rfl⟩ := (readExamFiles_ok_iff _ _ _ _).mp hres
  rw [aggKeys_eq lib tree hall] at hord
  have hnd : (mapKeys (finalMap lib tree)).Nodup := by
    rw [finalMap, mapKeys_mapInsertAll]
    exact nodup_keysAfter _ _ List.nodup_nil
  have hcov : ∀ p ∈ keptPairs lib tree, p.1 ∈ mapKeys (finalMap lib tree) := by
    intro p hp
    rw [finalMap, mapKeys_mapInsertAll, mem_keysAfter]
    exact Or.inr (List.mem_map.mpr ⟨p, hp, rfl⟩)
  have h1 : totalExams (subjectsOfMap (finalMap lib tree) ord) =
      (ord.map (fun k => (bucket (finalMap lib tree) k).length)).sum := by
    rw [totalExams, subjectsOfMap, List.map_map]
    rfl
  rw [h1, (hord.map (fun k => (bucket (finalMap lib tree) k).length)).sum_eq]
  have h2 : ∀ k ∈ mapKeys (finalMap lib tree),
      (bucket (finalMap lib tree) k).length =
        ((keptPairs lib tree).filter (fun p => p.1 == k)).length := by
    intro k hk
    rw [finalMap, bucket_mapInsertAll]
    rw [show bucket ([] : SubjectsMap) k = [] from rfl]
    simp
  rw [List.map_congr_left h2]
  rw [sum_bucket_lengths _ _ hnd hcov]
  exact keptPairs_length lib tree hall

/-- The names of the rendered subjects are exactly the iteration order. -/
theorem map_name_subjectsOfMap (m : SubjectsMap) (ord : List String) :
    (subjectsOfMap m ord).map Subject.name = ord := by
  induction ord with
  | nil => rfl
  | cons k ks ih =>
    have hstep : subjectsOfMap m (k :: ks) =
        ⟨k, bucket m k⟩ :: subjectsOfMap m ks := rfl
    rw [hstep, List.map_cons, ih]

/-- C1 (counterexample): the claim that the returned Subjects are ordered
by first-seen order fails — the final loop ranges over a Go map, whose
iteration order is unspecified; a valid iteration order can yield `b`
before `a` although `a`'s first file was encountered first. -/
theorem claim1_counterexample :
    ¬ (∀ (lib : ParserLib) (tree : List WalkEntry) (ord : List String)
        (subs : List Subject),
        readExamFiles lib tree ord = .ok subs →
        List.Perm ord (aggKeys lib tree) →
        subs.map Subject.name = aggKeys lib tree) := by
  intro h
  have hres : readExamFiles mockLib treeC1 ["b", "a"] =
      .ok [⟨"b", [⟨"y.json", .num 1⟩]⟩, ⟨"a", [⟨"x.json", .num 1⟩]⟩] := rfl
  have hkeys : aggKeys mockLib treeC1 = ["a", "b"] := rfl
  have hperm : List.Perm ["b", "a"] (aggKeys mockLib treeC1) := by
    rw [hkeys]
    decide
  have hnames := h mockLib treeC1 ["b", "a"] _ hres hperm
  rw [hkeys] at hnames
  simp at hnames

/-- C1 (amended): the returned sequence of Subjects is a permutation —
depending on the grouping map's unspecified iteration order — of the
first-seen-order sequence, whose names are the subject keys in first-seen
order; the collection of Subjects is deterministic but their relative
order is not. -/
theorem claim1_result_perm_of_first_seen (lib : ParserLib)
    (tree : List WalkEntry) (ord : List String) (subs : List Subject)
    (hres : readExamFiles lib tree ord = .ok subs)
    (hord : List.Perm ord (aggKeys lib tree)) :
    ∃ subs₀, readExamFilesFirstSeen lib tree = .ok subs₀ ∧
      List.Perm subs subs₀ ∧ subs₀.map Subject.name = aggKeys lib tree := by
  obtain ⟨hall, rfl⟩ := (readExamFiles_ok_iff _ _ _ _).mp hres
  have hwf := (walkFold_ok_iff lib tree [] (finalMap lib tree)).mpr ⟨hall, rfl⟩
  refine ⟨subjectsOfMap (finalMap lib tree) (mapKeys (finalMap lib tree)),
    ?_, ?_, ?_⟩
  · simp only [readExamFilesFirstSeen, hwf]
  · rw [aggKeys_eq lib tree hall] at hord
    exact hord.map _
  · rw [aggKeys_eq lib tree hall]
    exact map_name_subjectsOfMap _ _

/-- C2 (counterexample): two files in *different* parent directories that
share a base name (`json/x/m` and `json/y/m`) land in one and the same
Subject `m`, so "files in different parent directories never share a
Subject" fails on the code. -/
theorem claim2_counterexample :
    ¬ (∀ (lib : ParserLib) (tree : List WalkEntry) (ord : List String)
        (subs : List Subject) (e₁ e₂ : WalkEntry) (k₁ k₂ : String)
        (x₁ x₂ : ExamFile),
        readExamFiles lib tree ord = .ok subs →
        List.Perm ord (aggKeys lib tree) →
        e₁ ∈ tree → e₂ ∈ tree →
        processEntry lib e₁ = .keep k₁ x₁ →
        processEntry lib e₂ = .keep k₂ x₂ →
        goDir e₁.path ≠ goDir e₂.path →
        ¬ ∃ s ∈ subs, x₁ ∈ s.exams ∧ x₂ ∈ s.exams) := by
  intro h
  have hres : readExamFiles mockLib treeC2 ["m"] =
      .ok [⟨"m", [⟨"a.json", .num 1⟩, ⟨"b.json", .num 1⟩]⟩] := rfl
  have hkeys : aggKeys mockLib treeC2 = ["m"] := rfl
  have hperm : List.Perm ["m"] (aggKeys mockLib treeC2) := by
    rw [hkeys]
  have hm1 : fileEntry ["json", "x", "m", "a.json"] [48] ∈ treeC2 := by
    simp [treeC2]
  have hm2 : fileEntry ["json", "y", "m", "b.json"] [49] ∈ treeC2 := by
    simp [treeC2]
  have hno := h mockLib treeC2 ["m"]
    [⟨"m", [⟨"a.json", .num 1⟩, ⟨"b.json", .num 1⟩]⟩]
    (fileEntry ["json", "x", "m", "a.json"] [48])
    (fileEntry ["json", "y", "m", "b.json"] [49])
    "m" "m" ⟨"a.json", .num 1⟩ ⟨"b.json", .num 1⟩
    hres hperm hm1 hm2 rfl rfl (by decide)
  exact hno ⟨⟨"m", [⟨"a.json", .num 1⟩, ⟨"b.json", .num 1⟩]⟩,
    by simp, by simp, by simp⟩

/-- C2 (amended): grouping is by the parent directory's *base name*: the
subject names of a successful result are duplicate-free, every kept file
is keyed by the base name of its containing directory and named after the
file, and it appears in the (unique) Subject bearing that key — so files
in the same parent directory share a Subject named with the directory's
base name, and files in two distinct directories share a Subject exactly
when the directories' base names coincide. -/
theorem claim2_grouped_by_parent_base_name (lib : ParserLib)
    (tree : List WalkEntry) (ord : List String) (subs : List Subject)
    (e : WalkEntry) (k : String) (x : ExamFile)
    (hres : readExamFiles lib tree ord = .ok subs)
    (hord : List.Perm ord (aggKeys lib tree))
    (he : e ∈ tree) (hk : processEntry lib e = .keep k x) :
    (subs.map Subject.name).Nodup ∧ k = goBase (goDir e.path) ∧
      x.name = goBase e.path ∧ ∃ s ∈ subs, s.name = k ∧ x ∈ s.exams := by
  obtain ⟨hinv1, hinv2⟩ := processEntry_keep_inv lib e k x hk
  refine ⟨?_, hinv1, hinv2,
    keep_in_result lib tree ord subs e k x hres hord he hk⟩
  obtain ⟨hall, rfl⟩ := (readExamFiles_ok_iff _ _ _ _).mp hres
  rw [aggKeys_eq lib tree hall] at hord
  have hnd : (mapKeys (finalMap lib tree)).Nodup := by
    rw [finalMap, mapKeys_mapInsertAll]
    exact nodup_keysAfter _ _ List.nodup_nil
  rw [map_name_subjectsOfMap]
  exact hord.nodup_iff.mpr hnd

/-- C3: a matching non-empty file whose content fails to parse makes the
whole aggregation fail with the error wrapping that file's path and the
underlying parse error — regardless of how many well-formed files precede
it — and no partial Subject list is returned. -/
theorem claim3_parse_failure_aborts (lib : ParserLib)
    (pre post : List WalkEntry) (ord : List String) (bad : WalkEntry)
    (c : List Nat) (pmsg : String)
    (hpre : pre.all (entryOk lib) = true)
    (hw : bad.walkErr = none) (hd : bad.isDir = false)
    (hx : (goExt bad.path == ".json" || goExt bad.path == ".jsonc") = true)
    (hc : bad.content = .ok c) (hne : c ≠ [])
    (hp : parseFor lib (goExt bad.path) c = .error pmsg) :
    readExamFiles lib (pre ++ bad :: post) ord =
      .error (parseErrMsg (goExt bad.path) bad.path pmsg) := by
  have habort := processEntry_abort_parse lib bad c pmsg hw hd hx hc hne hp
  have hok : (walkFold lib [] pre).2 = .ok (mapInsertAll [] (keptPairs lib pre)) :=
    (walkFold_ok_iff lib pre [] _).mpr ⟨hpre, rfl⟩
  apply readExamFiles_error_of
  rw [walkFold_append_ok lib pre (bad :: post) [] _ hok]
  simp only [walkFold, habort]

/-- C5: a matching zero-length file makes the walk print a warning and
continue — the aggregation result is exactly the result for the tree
without that file, so the empty file never contributes an ExamEntry. -/
theorem claim5_empty_file_warn_and_skip (lib : ParserLib)
    (pre post : List WalkEntry) (ord : List String) (emp : WalkEntry)
    (hpre : pre.all (entryOk lib) = true)
    (hw : emp.walkErr = none) (hd : emp.isDir = false)
    (hx : (goExt emp.path == ".json" || goExt emp.path == ".jsonc") = true)
    (hc : emp.content = .ok []) :
    readExamFiles lib (pre ++ emp :: post) ord =
        readExamFiles lib (pre ++ post) ord ∧
      ("Warning: Skipping empty file " ++ pathToString emp.path ++ "\n")
        ∈ readWarnings lib (pre ++ emp :: post) := by
  have hwarn := processEntry_warnEmpty_of lib emp hw hd hx hc
  have hok : (walkFold lib [] pre).2 = .ok (mapInsertAll [] (keptPairs lib pre)) :=
    (walkFold_ok_iff lib pre [] _).mpr ⟨hpre, rfl⟩
  constructor
  · simp only [readExamFiles]
    rw [walkFold_append_ok lib pre (emp :: post) [] _ hok,
      walkFold_append_ok lib pre post [] _ hok]
    simp only [walkFold, hwarn]
  · rw [readWarnings, walkFold_append_ok lib pre (emp :: post) [] _ hok]
    simp only [walkFold, hwarn]
    simp [List.mem_append]

/-- C6: directories and files with an extension other than `.json` /
`.jsonc` (case-sensitively) are skipped silently: removing such an entry
from the traversal changes neither the aggregation result nor the printed
warnings, so they are never represented in the result. -/
theorem claim6_non_matching_skipped (lib : ParserLib)
    (pre post : List WalkEntry) (ord : List String) (e : WalkEntry)
    (hw : e.walkErr = none)
    (h : e.isDir = true ∨ (goExt e.path ≠ ".json" ∧ goExt e.path ≠ ".jsonc")) :
    readExamFiles lib (pre ++ e :: post) ord =
        readExamFiles lib (pre ++ post) ord ∧
      readWarnings lib (pre ++ e :: post) = readWarnings lib (pre ++ post) := by
  have hskip := processEntry_skip_of lib e hw h
  have key : ∀ m, walkFold lib m (pre ++ e :: post) = walkFold lib m (pre ++ post) := by
    induction pre with
    | nil =>
      intro m
      simp only [List.nil_append, walkFold, hskip]
    | cons a rest ih =>
      intro m
      cases hpa : processEntry lib a with
      | abort msg => simp only [List.cons_append, walkFold, hpa]
      | skip =>
        simp only [List.cons_append, walkFold, hpa]
        exact ih m
      | warnEmpty w =>
        simp only [List.cons_append, walkFold, hpa, List.append_eq]
        rw [ih m]
      | keep k x =>
        simp only [List.cons_append, walkFold, hpa]
        exact ih _
  constructor
  · simp only [readExamFiles]
    rw [key []]
  · simp only [readWarnings]
    rw [key []]

/-- The body the handler writes does not depend on the preset headers. -/
theorem serveExamFilesW_body_eq (hs₀ hs₁ : List (String × String))
    (lib : ParserLib) (tree : List WalkEntry) (ord : List String)
    (encode : List Subject → Except String String) :
    (serveExamFilesW hs₀ lib tree ord encode).body =
      (serveExamFilesW hs₁ lib tree ord encode).body := by
  cases hres : readExamFiles lib tree ord with
  | error e =>
    simp only [serveExamFilesW, hres]
    rfl
  | ok subs =>
    cases henc : encode subs with
    | error e =>
      simp only [serveExamFilesW, hres, henc]
      rfl
    | ok body =>
      simp only [serveExamFilesW, hres, henc]

/-- C7: the exams handler answers every request either with status 200 and
the serialized aggregation result, or with status 500 and a plain-text
body consisting of the fixed prefix (`Failed to read exam files: ` or
`Failed to encode response: `) followed by the error's description (as a
printed line) — never a partial JSON result on the error path. -/
theorem claim7_success_or_500 (lib : ParserLib) (tree : List WalkEntry)
    (ord : List String) (encode : List Subject → Except String String) :
    (∃ subs body, readExamFiles lib tree ord = .ok subs ∧
      encode subs = .ok body ∧
      serveExamFiles lib tree ord encode =
        { headers := [("Content-Type", "application/json")],
          status := 200, body := body }) ∨
    (∃ e, readExamFiles lib tree ord = .error e ∧
      (serveExamFiles lib tree ord encode).status = 500 ∧
      (serveExamFiles lib tree ord encode).body =
        "Failed to read exam files: " ++ e ++ "\n" ∧
      headerValue (serveExamFiles lib tree ord encode) "Content-Type" =
        some "text/plain; charset=utf-8") ∨
    (∃ subs e, readExamFiles lib tree ord = .ok subs ∧
      encode subs = .error e ∧
      (serveExamFiles lib tree ord encode).status = 500 ∧
      (serveExamFiles lib tree ord encode).body =
        "Failed to encode response: " ++ e ++ "\n" ∧
      headerValue (serveExamFiles lib tree ord encode) "Content-Type" =
        some "text/plain; charset=utf-8") := by
  cases hres : readExamFiles lib tree ord with
  | error e =>
    have hserve : serveExamFiles lib tree ord encode =
        httpError (setHeader [] "Content-Type" "application/json")
          ("Failed to read exam files: " ++ e) := by
      simp only [serveExamFiles, serveExamFilesW, hres]
    right; left
    exact ⟨e, rfl, by rw [hserve]; rfl, by rw [hserve]; rfl, by rw [hserve]; rfl⟩
  | ok subs =>
    cases henc : encode subs with
    | error e =>
      have hserve : serveExamFiles lib tree ord encode =
          httpError (setHeader [] "Content-Type" "application/json")
            ("Failed to encode response: " ++ e) := by
        simp only [serveExamFiles, serveExamFilesW, hres, henc]
      right; right
      exact ⟨subs, e, rfl, henc, by rw [hserve]; rfl, by rw [hserve]; rfl,
        by rw [hserve]; rfl⟩
    | ok body =>
      left
      refine ⟨subs, body, rfl, henc, ?_⟩
      simp only [serveExamFiles, serveExamFilesW, hres, henc]
      rfl

/-- C8: when the request's `Accept-Encoding` contains `gzip`, the response
of the wrapped exams endpoint carries `Content-Encoding: gzip` and no
`Content-Length` header, and decompressing its body yields exactly the
bytes the same request would receive uncompressed; a request not
advertising gzip is served uncompressed. -/
theorem claim8_gzip_compression (comp decomp : String → String)
    (hcodec : ∀ s, decomp (comp s) = s)
    (lib : ParserLib) (tree : List WalkEntry) (ord : List String)
    (encode : List Subject → Except String String) (r : Request) :
    (goContains r.acceptEncoding "gzip" = true →
      headerValue (gzipExams comp lib tree ord encode r) "Content-Encoding" =
        some "gzip" ∧
      headerValue (gzipExams comp lib tree ord encode r) "Content-Length" = none ∧
      decomp (gzipExams comp lib tree ord encode r).body =
        (serveExamFiles lib tree ord encode).body) ∧
    (goContains r.acceptEncoding "gzip" = false →
      gzipExams comp lib tree ord encode r =
        serveExamFiles lib tree ord encode) := by
  constructor
  · intro hgz
    have hexp : gzipExams comp lib tree ord encode r =
        { headers := delHeader (serveExamFilesW [("Content-Encoding", "gzip")]
            lib tree ord encode).headers "Content-Length",
          status := (serveExamFilesW [("Content-Encoding", "gzip")]
            lib tree ord encode).status,
          body := comp (serveExamFilesW [("Content-Encoding", "gzip")]
            lib tree ord encode).body } := by
      unfold gzipExams gzipMiddleware examsHandler
      rw [hgz]
      rfl
    refine ⟨?_, ?_, ?_⟩
    · rw [hexp]
      cases hres : readExamFiles lib tree ord with
      | error e =>
        have hserve : serveExamFilesW [("Content-Encoding", "gzip")]
            lib tree ord encode =
            httpError (setHeader [("Content-Encoding", "gzip")]
              "Content-Type" "application/json")
              ("Failed to read exam files: " ++ e) := by
          simp only [serveExamFilesW, hres]
        rw [hserve]; rfl
      | ok subs =>
        cases henc : encode subs with
        | error e =>
          have hserve : serveExamFilesW [("Content-Encoding", "gzip")]
              lib tree ord encode =
              httpError (setHeader [("Content-Encoding", "gzip")]
                "Content-Type" "application/json")
                ("Failed to encode response: " ++ e) := by
            simp only [serveExamFilesW, hres, henc]
          rw [hserve]; rfl
        | ok body =>
          have hserve : serveExamFilesW [("Content-Encoding", "gzip")]
              lib tree ord encode =
              { headers := setHeader [("Content-Encoding", "gzip")]
                  "Content-Type" "application/json",
                status := 200, body := body } := by
            simp only [serveExamFilesW, hres, henc]
          rw [hserve]; rfl
    · rw [hexp]
      cases hres : readExamFiles lib tree ord with
      | error e =>
        have hserve : serveExamFilesW [("Content-Encoding", "gzip")]
            lib tree ord encode =
            httpError (setHeader [("Content-Encoding", "gzip")]
              "Content-Type" "application/json")
              ("Failed to read exam files: " ++ e) := by
          simp only [serveExamFilesW, hres]
        rw [hserve]; rfl
      | ok subs =>
        cases henc : encode subs with
        | error e =>
          have hserve : serveExamFilesW [("Content-Encoding", "gzip")]
              lib tree ord encode =
              httpError (setHeader [("Content-Encoding", "gzip")]
                "Content-Type" "application/json")
                ("Failed to encode response: " ++ e) := by
            simp only [serveExamFilesW, hres, henc]
          rw [hserve]; rfl
        | ok body =>
          have hserve : serveExamFilesW [("Content-Encoding", "gzip")]
              lib tree ord encode =
              { headers := setHeader [("Content-Encoding", "gzip")]
                  "Content-Type" "application/json",
                status := 200, body := body } := by
            simp only [serveExamFilesW, hres, henc]
          rw [hserve]; rfl
    · rw [hexp]
      rw [hcodec]
      exact serveExamFilesW_body_eq _ _ _ _ _ _
  · intro hgz
    unfold gzipExams gzipMiddleware examsHandler serveExamFiles
    rw [hgz]
    rfl

/-! ## Witnesses: the claim theorems applied at concrete inputs -/

/-- Witness for C1 (amended), at `treeC1` with iteration order `b, a`. -/
theorem claim1_witness :
    ∃ subs₀, readExamFilesFirstSeen mockLib treeC1 = .ok subs₀ ∧
      List.Perm ([⟨"b", [⟨"y.json", JsonValue.num 1⟩]⟩,
        ⟨"a", [⟨"x.json", JsonValue.num 1⟩]⟩] : List Subject) subs₀ ∧
      subs₀.map Subject.name = aggKeys mockLib treeC1 :=
  claim1_result_perm_of_first_seen mockLib treeC1 ["b", "a"] _ rfl (by decide)

/-- Witness for C2 (amended), at `treeC2`. -/
theorem claim2_witness :
    ((([⟨"m", [⟨"a.json", JsonValue.num 1⟩, ⟨"b.json", JsonValue.num 1⟩]⟩] :
        List Subject).map Subject.name).Nodup ∧
      "m" = goBase (goDir (fileEntry ["json", "x", "m", "a.json"] [48]).path) ∧
      (⟨"a.json", JsonValue.num 1⟩ : ExamFile).name =
        goBase (fileEntry ["json", "x", "m", "a.json"] [48]).path ∧
      ∃ s ∈ ([⟨"m", [⟨"a.json", JsonValue.num 1⟩, ⟨"b.json", JsonValue.num 1⟩]⟩] :
          List Subject),
        s.name = "m" ∧ (⟨"a.json", JsonValue.num 1⟩ : ExamFile) ∈ s.exams) :=
  claim2_grouped_by_parent_base_name mockLib treeC2 ["m"] _
    (fileEntry ["json", "x", "m", "a.json"] [48]) "m"
    ⟨"a.json", JsonValue.num 1⟩ rfl (by decide) (by simp [treeC2]) rfl

/-- Witness for C3: one well-formed file followed by a malformed one. -/
theorem claim3_witness :
    readExamFiles mockLib
        ([fileEntry ["json", "math", "good.json"] [48]] ++
          fileEntry ["json", "math", "bad.json"] [33] :: []) [] =
      .error (parseErrMsg
        (goExt (fileEntry ["json", "math", "bad.json"] [33]).path)
        (fileEntry ["json", "math", "bad.json"] [33]).path "invalid character") :=
  claim3_parse_failure_aborts mockLib _ _ _ _ [33] "invalid character"
    rfl rfl rfl rfl rfl (by decide) rfl

/-- Witness for C4, at `treeC1`: two subjects, one file each. -/
theorem claim4_witness :
    totalExams ([⟨"b", [⟨"y.json", JsonValue.num 1⟩]⟩,
        ⟨"a", [⟨"x.json", JsonValue.num 1⟩]⟩] : List Subject) =
      countMatchingNonEmpty treeC1 :=
  claim4_total_entry_count mockLib treeC1 ["b", "a"] _ rfl (by decide)

/-- Witness for C5: a single empty matching file. -/
theorem claim5_witness :
    readExamFiles mockLib
        ([] ++ fileEntry ["json", "math", "empty.json"] [] :: []) [] =
        readExamFiles mockLib ([] ++ []) [] ∧
      ("Warning: Skipping empty file " ++
          pathToString (fileEntry ["json", "math", "empty.json"] []).path ++ "\n")
        ∈ readWarnings mockLib
            ([] ++ fileEntry ["json", "math", "empty.json"] [] :: []) :=
  claim5_empty_file_warn_and_skip mockLib [] [] []
    (fileEntry ["json", "math", "empty.json"] []) rfl rfl rfl rfl rfl

/-- Witness for C6: a `.txt` file is skipped silently. -/
theorem claim6_witness :
    readExamFiles mockLib ([] ++ fileEntry ["json", "notes.txt"] [48] :: []) [] =
        readExamFiles mockLib ([] ++ []) [] ∧
      readWarnings mockLib ([] ++ fileEntry ["json", "notes.txt"] [48] :: []) =
        readWarnings mockLib ([] ++ []) :=
  claim6_non_matching_skipped mockLib [] [] []
    (fileEntry ["json", "notes.txt"] [48]) rfl
    (Or.inr ⟨by decide, by decide⟩)

/-- Witness for C8, with the identity codec and a request advertising
gzip. -/
theorem claim8_witness :
    (goContains (Request.mk "gzip").acceptEncoding "gzip" = true →
      headerValue (gzipExams (fun s => s) mockLib [] [] mockEncode
        (Request.mk "gzip")) "Content-Encoding" = some "gzip" ∧
      headerValue (gzipExams (fun s => s) mockLib [] [] mockEncode
        (Request.mk "gzip")) "Content-Length" = none ∧
      (fun s => s) (gzipExams (fun s => s) mockLib [] [] mockEncode
        (Request.mk "gzip")).body =
        (serveExamFiles mockLib [] [] mockEncode).body) ∧
    (goContains (Request.mk "gzip").acceptEncoding "gzip" = false →
      gzipExams (fun s => s) mockLib [] [] mockEncode (Request.mk "gzip") =
        serveExamFiles mockLib [] [] mockEncode) :=
  claim8_gzip_compression (fun s => s) (fun s => s) (fun _ => rfl)
    mockLib [] [] mockEncode (Request.mk "gzip")

/-- Witness for C9, at `treeC1`'s subject `b`. -/
theorem claim9_witness :
    (⟨"b", [⟨"y.json", JsonValue.num 1⟩]⟩ : Subject).exams ≠ [] :=
  claim9_subject_exams_nonempty mockLib treeC1 ["b", "a"] _ _ rfl (by decide)
    (List.Mem.head _)

/-- Witness for C10: the file `json/root.json` lands under subject
`json`. -/
theorem claim10_witness :
    ∃ s ∈ ([⟨"json", [⟨"root.json", JsonValue.num 1⟩]⟩] : List Subject),
      s.name = "json" ∧ (⟨"root.json", JsonValue.num 1⟩ : ExamFile) ∈ s.exams :=
  claim10_root_file_under_json mockLib treeRoot ["json"] _ "root.json" [48]
    (JsonValue.num 1) rfl (by decide)
    (List.Mem.tail _ (List.Mem.head _)) rfl (by decide) rfl

end MockExam
